import Mathlib

set_option maxRecDepth 10000

/-!
# Verification of the gmqtt transport-facing core (`gmqtt/mqtt/protocol.py`)

This file shallowly embeds the MQTT frame decoder (`MQTTProtocol._read_packet`),
the incremental read loop (`MQTTProtocol._read_loop`), the connection-lifecycle
handler (`connection_lost`), and the send-side helpers of the repository, and
proves the behavioural properties stated in the specification.

Bytes are modelled as `Fin 256` (Python `bytes` elements), byte buffers as
`List Byte`.  Machine integers in the Python source are unbounded, so they are
modelled as `Nat` / `Int` directly.  The two loops of `_read_packet` are
modelled as structurally recursive functions over a fuel argument: the inner
varint loop runs at most 5 iterations (the multiplier check `mult > 2097152`
fires on the 5th iteration at the latest), and the outer loop consumes at
least two bytes per emitted packet, so a fuel of `data.length` is always
sufficient; fuel sufficiency is proved below (`readPacketAux_fuel`).
-/

/-- A byte, as produced by indexing a Python `bytes` object. -/
abbrev Byte := Fin 256

/-- Outcome of the inner `while True` varint loop of `_read_packet`:
`notFullHeader` models the early `return parsed_size` (buffer ended inside a
header), `malformed` models `return -1`, and `done hs psz` models falling out
of the loop via `break` with the current `header_size` and `payload_size`. -/
inductive VarintResult where
  | notFullHeader : VarintResult
  | malformed : VarintResult
  | done : Nat → Nat → VarintResult
deriving DecidableEq, Repr

/-- The inner varint loop of `MQTTProtocol._read_packet` (protocol.py lines
124-144).  Arguments after `data_size` are the fuel and the running
`header_size`, `mult`, `payload_size` of the Python code.  The fuel-0 branch
is unreachable from the real entry state (fuel 5, `mult = 1`): the check
`mult > 2097152` returns `-1` on the 5th iteration at the latest. -/
def readVarintAux (data : List Byte) (parsed_size data_size : Nat) :
    Nat → Nat → Nat → Nat → VarintResult
  | 0, _header_size, _mult, _payload_size => VarintResult.malformed
  | fuel + 1, header_size, mult, payload_size =>
    if hix : parsed_size + header_size ≥ data.length then
      -- not full header
      VarintResult.notFullHeader
    else
      -- payload_byte = data[parsed_size + header_size];
      -- payload_size += (payload_byte & 0x7F) * mult   (both inlined below)
      if mult > 2097152 then -- 128 * 128 * 128
        VarintResult.malformed
      else if header_size + 1 +
          (payload_size + Nat.land (data.get ⟨parsed_size + header_size, by omega⟩).val 127 * mult) >
          data_size then
        -- not enough data
        VarintResult.done (header_size + 1)
          (payload_size + Nat.land (data.get ⟨parsed_size + header_size, by omega⟩).val 127 * mult)
      else if Nat.land (data.get ⟨parsed_size + header_size, by omega⟩).val 128 = 0 then
        VarintResult.done (header_size + 1)
          (payload_size + Nat.land (data.get ⟨parsed_size + header_size, by omega⟩).val 127 * mult)
      else
        readVarintAux data parsed_size data_size fuel (header_size + 1) (mult * 128)
          (payload_size + Nat.land (data.get ⟨parsed_size + header_size, by omega⟩).val 127 * mult)

/-- The outer `while True` loop of `MQTTProtocol._read_packet` (protocol.py
lines 111-158).  Returns the Python return value (`parsed_size` or `-1`)
together with the list of packets passed to `self._connection.put_package`,
in emission order.  The invariant `parsed_size + data_size ≤ data.length`
holds at every call (the code maintains `data_size = len(data) - parsed_size`)
and justifies the index accesses. -/
def readPacketAux (data : List Byte) :
    (fuel parsed_size data_size : Nat) → parsed_size + data_size ≤ data.length →
    Int × List (Byte × List Byte)
  | 0, parsed_size, _, _ => ((parsed_size : Int), [])
  | fuel + 1, parsed_size, data_size, hle =>
    -- try to extract packet data, minimum expected packet size is 2
    if hds : data_size < 2 then
      ((parsed_size : Int), [])
    else
      match readVarintAux data parsed_size data_size 5 1 1 0 with
      | VarintResult.notFullHeader => ((parsed_size : Int), [])
      | VarintResult.malformed => ((-1 : Int), [])
      | VarintResult.done header_size payload_size =>
        -- check size once more
        if hsz : header_size + payload_size > data_size then
          ((parsed_size : Int), [])
        else
          -- command = data[parsed_size]; packet = data[start:end]; appended in
          -- emission order before looping on the remaining bytes
          ((readPacketAux data fuel (parsed_size + (header_size + payload_size))
              (data_size - (header_size + payload_size)) (by omega)).1,
            (data.get ⟨parsed_size, by omega⟩,
              (data.drop (parsed_size + header_size)).take payload_size) ::
              (readPacketAux data fuel (parsed_size + (header_size + payload_size))
                (data_size - (header_size + payload_size)) (by omega)).2)

/-- `MQTTProtocol._read_packet(data)`: the Python return value together with
the packets emitted to the inbound queue, in order. -/
def readPacket (data : List Byte) : Int × List (Byte × List Byte) :=
  readPacketAux data data.length 0 data.length (by omega)

/-- Value of a base-128 varint, least-significant byte first, exactly as
accumulated by the decoder (`value += (byte & 0x7F) * mult`, `mult *= 128`). -/
def varintVal : List Byte → Nat
  | [] => 0
  | b :: bs => b.val % 128 + 128 * varintVal bs

/-- A non-empty varint byte sequence: every byte except the last has the
continuation bit `0x80` set, the last does not. -/
def ValidVarintTail : List Byte → Prop
  | [] => False
  | [b] => b.val < 128
  | b :: bs => 128 ≤ b.val ∧ ValidVarintTail bs

/-- A well-formed MQTT remaining-length field: a valid varint of at most 4
bytes (wire format, §6 of the spec). -/
def ValidVarint (L : List Byte) : Prop :=
  ValidVarintTail L ∧ L.length ≤ 4

/-- One well-formed wire packet: command byte, remaining-length field,
payload. -/
structure WirePacket where
  cmd : Byte
  lenBytes : List Byte
  payload : List Byte

/-- Well-formedness of a wire packet: the length field is a valid varint and
the payload has exactly the advertised length. -/
def WirePacket.Valid (w : WirePacket) : Prop :=
  ValidVarint w.lenBytes ∧ w.payload.length = varintVal w.lenBytes

/-- Serialise a wire packet: command byte, length bytes, payload bytes. -/
def WirePacket.encode (w : WirePacket) : List Byte :=
  w.cmd :: (w.lenBytes ++ w.payload)

/-- Concatenation of the encodings of a list of packets. -/
def encodeList (ws : List WirePacket) : List Byte :=
  (ws.map WirePacket.encode).flatten

/-- The `(command, payload)` pairs the decoder should emit for `ws`. -/
def packetsOf (ws : List WirePacket) : List (Byte × List Byte) :=
  ws.map fun w => (w.cmd, w.payload)

/-- `pp` is a proper (strict) prefix of the encoding of some well-formed
packet, or is empty: the shapes on which the decoder must stop and consume
nothing. -/
def TruncatedPacket (pp : List Byte) : Prop :=
  pp = [] ∨ ∃ (w : WirePacket) (t : List Byte), w.Valid ∧ pp ++ t = w.encode ∧ t ≠ []

/-- `pp` is a proper prefix of the encoding of the first packet of `ws`
(empty when `ws` is empty): the residual-buffer invariant of the read loop. -/
def TruncatedHead (pp : List Byte) : List WirePacket → Prop
  | [] => pp = []
  | w :: _ => ∃ t, pp ++ t = w.encode ∧ t ≠ []

/-- The incremental feeding discipline of `MQTTProtocol._read_loop`
(protocol.py lines 160-177): append the newly read chunk to the residual
buffer, run `_read_packet`, stop on the `-1` sentinel, otherwise trim the
buffer by the consumed count and continue.  Returns all packets emitted to
the inbound queue, in order. -/
def feedChunks : List (List Byte) → List Byte → List (Byte × List Byte)
  | [], _ => []
  | c :: cs, buf =>
    -- buf += chunk; parsed_size = _read_packet(buf); break on -1;
    -- buf = buf[parsed_size:]
    if (readPacket (buf ++ c)).1 = -1 then (readPacket (buf ++ c)).2
    else (readPacket (buf ++ c)).2 ++
      feedChunks cs ((buf ++ c).drop (readPacket (buf ++ c)).1.toNat)

/-- The varint value as the decoder accumulates it: byte `i` contributes
`(byte & 0x7F) * mult` where `mult` starts at the given value and is
multiplied by 128 after each byte. -/
def varintAcc (mult : Nat) : List Byte → Nat
  | [] => 0
  | b :: bs => Nat.land b.val 127 * mult + varintAcc (mult * 128) bs

/-! ## Transport writes, the command dispatcher, lifecycle, and reads -/

/-- Connection/transport state visible to `write_data`: the closing flag and
the chronological list of byte strings accepted by `write`. -/
structure Transport where
  is_closing : Bool
  written : List (List Byte)
deriving DecidableEq, Repr

/-- `BaseMQTTProtocol.write_data` (protocol.py lines 28-32): write the bytes
unless the connection reports it is closing; in that case drop them and log
the "[TRYING WRITE TO CLOSED SOCKET]" diagnostic.  The returned `Bool` is
whether the diagnostic was logged.  The function is total: no code path
raises. -/
def write_data (t : Transport) (data : List Byte) : Transport × Bool :=
  if ¬ t.is_closing then ({ t with written := t.written ++ [data] }, false)
  else (t, true)

/-- `MQTTProtocol.send_subscribe_packet`.  Modelled from the spec: the
packet-builder collaborator (`package.SubscribePacket.build_package`, outside
this repository's sources) supplies the `(mid, pkg)` pair; the dispatcher
writes `pkg` and returns `mid`. -/
def send_subscribe_packet (t : Transport) (mid : Nat) (pkg : List Byte) :
    Transport × Nat :=
  ((write_data t pkg).1, mid)

/-- `MQTTProtocol.send_unsubscribe_packet`.  Modelled from the spec: builder
supplies `(mid, pkg)`; the dispatcher writes `pkg` and returns `mid`. -/
def send_unsubscribe_packet (t : Transport) (mid : Nat) (pkg : List Byte) :
    Transport × Nat :=
  ((write_data t pkg).1, mid)

/-- `MQTTProtocol.send_simple_command_packet`.  Modelled from the spec:
builder supplies `pkg`; the dispatcher writes it and returns nothing. -/
def send_simple_command_packet (t : Transport) (pkg : List Byte) :
    Transport × Unit :=
  ((write_data t pkg).1, ())

/-- `MQTTProtocol.send_ping_request`: delegates to
`send_simple_command_packet` (with the PINGREQ bytes) and returns its
(empty) result. -/
def send_ping_request (t : Transport) (pkg : List Byte) : Transport × Unit :=
  send_simple_command_packet t pkg

/-- `MQTTProtocol.send_publish`.  Modelled from the spec: builder supplies
`(mid, pkg)`.  The source returns the pair `mid, pkg` — not the bare mid. -/
def send_publish (t : Transport) (mid : Nat) (pkg : List Byte) :
    Transport × (Nat × List Byte) :=
  ((write_data t pkg).1, (mid, pkg))

/-- `MQTTProtocol.send_disconnect`.  Modelled from the spec: builder supplies
`pkg`.  The source returns `pkg` — not nothing. -/
def send_disconnect (t : Transport) (pkg : List Byte) : Transport × List Byte :=
  ((write_data t pkg).1, pkg)

/-- Modelled from the spec: `MQTTCommands.DISCONNECT` lives in the constants
collaborator, outside this repository's sources; the spec's worked example
(`\xe0\x00` decodes as DISCONNECT) fixes the command byte to 0xE0. -/
def DISCONNECT : Byte := 0xe0

/-- Protocol-instance state touched by `connection_lost`:  the Connection
Gate (`self._connected`), the inbound packet queue fed through
`self._connection.put_package` (modelled from the spec as FIFO append), the
identity (`queueGen`) and contents of `self._queue`, the read-loop task
handle, and the collection of cancelled task handles. -/
structure ProtocolState where
  connected : Bool
  connQueue : List (Byte × List Byte)
  queueGen : Nat
  queueContents : List (Byte × List Byte)
  readLoopFuture : Option Nat
  cancelledTasks : List Nat
deriving DecidableEq, Repr

/-- `BaseMQTTProtocol.connection_lost` (protocol.py lines 34-40): clears the
Connection Gate (and logs). -/
def base_connection_lost (s : ProtocolState) : ProtocolState :=
  { s with connected := false }

/-- `MQTTProtocol.connection_lost` (protocol.py lines 179-186): run the base
handler, enqueue the `(DISCONNECT, b'')` pseudo-packet, cancel and release
the read-loop future if held, and replace `self._queue` with a fresh empty
queue. -/
def connection_lost (s : ProtocolState) : ProtocolState :=
  let s1 := base_connection_lost s
  let s2 := { s1 with connQueue := s1.connQueue ++ [(DISCONNECT, [])] }
  let s3 :=
    match s2.readLoopFuture with
    | some tid =>
      { s2 with cancelledTasks := s2.cancelledTasks ++ [tid], readLoopFuture := none }
    | none => s2
  { s3 with queueContents := [], queueGen := s3.queueGen + 1 }

/-- Result of `BaseMQTTProtocol.read`: whether `close()` was called on the
connection, and either the bytes returned (`some bs`) or the raised
`ConnectionResetError` (`none`). -/
structure ReadOutcome where
  closedTransport : Bool
  result : Option (List Byte)
deriving DecidableEq, Repr

/-- `BaseMQTTProtocol.read` (protocol.py lines 42-51): an empty read while
the connection is not closing closes the connection and raises
`ConnectionResetError`; otherwise the bytes are returned. -/
def read_model (bs : List Byte) (is_closing : Bool) : ReadOutcome :=
  if bs = [] ∧ is_closing = false then { closedTransport := true, result := none }
  else { closedTransport := false, result := some bs }

/-- Observable outcome of one iteration of the `while` body of
`MQTTProtocol._read_loop`: whether `close()` was called, whether the loop
stopped (`break`), whether an exception escaped the iteration (the
`except ConnectionResetError` clause catches the reset, so this models the
absence of a re-raise beyond the task boundary), and the residual buffer. -/
structure LoopIterOutcome where
  closedTransport : Bool
  stopped : Bool
  raisedOut : Bool
  buf : List Byte
deriving DecidableEq, Repr

/-- One iteration of `MQTTProtocol._read_loop` (protocol.py lines 165-177)
with residual buffer `buf`, the transport yielding `bs`, and closing state
`is_closing`: a raised reset is caught and breaks the loop; otherwise the
chunk is appended, `_read_packet` runs, the loop breaks on `-1` or a closing
transport, and otherwise the buffer is trimmed by the consumed count. -/
def read_loop_iter (buf bs : List Byte) (is_closing : Bool) : LoopIterOutcome :=
  match (read_model bs is_closing).result with
  | none =>
    { closedTransport := (read_model bs is_closing).closedTransport,
      stopped := true, raisedOut := false, buf := buf }
  | some bs2 =>
    if (readPacket (buf ++ bs2)).1 = -1 ∨ is_closing = true then
      { closedTransport := (read_model bs is_closing).closedTransport,
        stopped := true, raisedOut := false, buf := buf ++ bs2 }
    else
      { closedTransport := (read_model bs is_closing).closedTransport,
        stopped := false, raisedOut := false,
        buf := (buf ++ bs2).drop (readPacket (buf ++ bs2)).1.toNat }

/-- Attributes set by `BaseMQTTProtocol.__init__(buffer_size=2**16,
loop=None)` (protocol.py lines 12-15): `self._connection = None` and a fresh,
unset `self._connected` event.  Note `buffer_size` is not stored. -/
structure BaseProtocolInit where
  connection : Option Unit
  connected : Bool
deriving DecidableEq, Repr

/-- `BaseMQTTProtocol.__init__`: the constructed attribute state. -/
def base_init (buffer_size : Nat) : BaseProtocolInit :=
  { connection := none, connected := false }

/-- The local `max_buff_size = 65536` of `MQTTProtocol._read_loop`
(protocol.py line 163). -/
def max_buff_size : Nat := 65536

/-- The byte count a read-loop iteration passes to `self.read(...)` for a
protocol instance constructed with the given `buffer_size`: the loop always
uses its local `max_buff_size`. -/
def read_request_size (buffer_size : Nat) : Nat :=
  max_buff_size

/-- Validity of a varint tail is decidable (used to evaluate concrete
witnesses). -/
instance decidableValidVarintTail : (L : List Byte) → Decidable (ValidVarintTail L)
  | [] => isFalse fun h => h
  | [b] => inferInstanceAs (Decidable (b.val < 128))
  | b :: c :: cs =>
    @instDecidableAnd (128 ≤ b.val) (ValidVarintTail (c :: cs)) (Nat.decLe _ _)
      (decidableValidVarintTail (c :: cs))

/-- Well-formedness of a wire packet is decidable. -/
instance decidableWirePacketValid (w : WirePacket) : Decidable w.Valid :=
  decidable_of_iff
    (ValidVarintTail w.lenBytes ∧ w.lenBytes.length ≤ 4 ∧
      w.payload.length = varintVal w.lenBytes)
    (by unfold WirePacket.Valid ValidVarint; tauto)

-- Sanity checks against the worked examples of spec §8.
example : readPacket [0x30, 0x05, 104, 101, 108, 108, 111] =
    (7, [(0x30, [104, 101, 108, 108, 111])]) := by decide
example : readPacket [0xe0, 0x00] = (2, [(0xe0, [])]) := by decide
example : readPacket [0x10, 0xff, 0x80, 0x80, 0x80, 0x80] = (0, []) := by decide
example : readPacket [0x10, 0x80, 0x80, 0x80, 0x80, 0x80] = (-1, []) := by decide
example : feedChunks [[0xe0], [0x00, 0x30], [0x01, 0x07]] [] =
    [(0xe0, []), (0x30, [0x07])] := by decide

/-! ## Byte-level helper lemmas -/

/-- `b & 0x7F` extracts the low seven bits of a natural number. -/
theorem land_127 (b : Nat) : Nat.land b 127 = b % 128 :=
  Nat.and_pow_two_sub_one_eq_mod b 7

/-- For a byte, `b & 128 == 0` holds exactly when the continuation bit is
clear. -/
theorem land_128 : ∀ b : Byte, Nat.land b.val 128 = 0 ↔ b.val < 128 := by
  decide

/-! ## List helper lemmas -/

/-- A non-nil drop pins down the list length. -/
theorem length_of_drop_cons {data l : List Byte} {b : Byte} {n : Nat}
    (h : data.drop n = b :: l) : data.length = n + (l.length + 1) := by
  have hl := List.length_drop n data
  rw [h] at hl
  simp only [List.length_cons] at hl
  omega

/-- The element at the split point of a non-nil drop. -/
theorem get_of_drop_cons {data l : List Byte} {b : Byte} {n : Nat}
    (h : data.drop n = b :: l) (hn : n < data.length) :
    data.get ⟨n, hn⟩ = b := by
  have h2 : 0 < (data.drop n).length := by rw [h]; simp
  have h0 : (data.drop n).get ⟨0, h2⟩ = data.get ⟨n, hn⟩ := by
    simp [List.getElem_drop]
  rw [← h0]
  simp [h]

/-- Dropping one more byte past a non-nil drop. -/
theorem drop_succ_of_drop_cons {data l : List Byte} {b : Byte} {n : Nat}
    (h : data.drop n = b :: l) : data.drop (n + 1) = l := by
  have h0 : data.drop (n + 1) = (data.drop n).drop 1 := by
    rw [List.drop_drop]
  rw [h0, h]
  rfl

/-! ## Structural facts about the varint loop -/

/-- A `done` outcome always carries a strictly larger `header_size` than the
loop entered with (the loop increments `header_size` before every exit via
`break`). -/
theorem readVarintAux_done_lt {data : List Byte} {ps ds : Nat} :
    ∀ {fuel hs mult psz hs2 psz2},
      readVarintAux data ps ds fuel hs mult psz = VarintResult.done hs2 psz2 →
      hs < hs2 := by
  intro fuel
  induction fuel with
  | zero =>
    intro hs mult psz hs2 psz2 h
    simp [readVarintAux] at h
  | succ n ih =>
    intro hs mult psz hs2 psz2 h
    rw [readVarintAux] at h
    split at h
    · exact absurd h (by simp)
    · split at h
      · exact absurd h (by simp)
      · split at h
        · injection h with h1 h2
          omega
        · split at h
          · injection h with h1 h2
            omega
          · have := ih h
            omega

/-! ## The varint loop on well-formed length fields -/

/-- The accumulator agrees with the little-endian base-128 value. -/
theorem varintAcc_eq (L : List Byte) : ∀ mult, varintAcc mult L = mult * varintVal L := by
  induction L with
  | nil => intro mult; simp [varintAcc, varintVal]
  | cons b bs ih =>
    intro mult
    rw [varintAcc, varintVal, ih (mult * 128), land_127]
    ring

/-- Entering the varint loop with the remaining length bytes `L2` of a valid
varint laid out at `data[ps+hs..]`, with enough declared data to cover the
header and the accumulated value, the loop completes and reports the final
`header_size` and `payload_size`. -/
theorem readVarintAux_done {data : List Byte} {ps ds : Nat} :
    ∀ (L2 t2 : List Byte) (fuel hs mult psz : Nat),
      ValidVarintTail L2 →
      L2.length ≤ fuel →
      mult * 128 ^ (L2.length - 1) ≤ 2097152 →
      data.drop (ps + hs) = L2 ++ t2 →
      hs + L2.length + (psz + varintAcc mult L2) ≤ ds →
      readVarintAux data ps ds fuel hs mult psz =
        VarintResult.done (hs + L2.length) (psz + varintAcc mult L2) := by
  intro L2
  induction L2 with
  | nil =>
    intro t2 fuel hs mult psz hval
    exact absurd hval (by simp [ValidVarintTail])
  | cons b bs ih =>
    intro t2 fuel hs mult psz hval hfuel hmult hdrop hsize
    have hdropc : data.drop (ps + hs) = b :: (bs ++ t2) := by simpa using hdrop
    have hlen := length_of_drop_cons hdropc
    cases fuel with
    | zero => simp at hfuel
    | succ f =>
      rw [readVarintAux]
      rw [dif_neg (by omega : ¬ ps + hs ≥ data.length)]
      have hmle : ¬ mult > 2097152 := by
        have h1 : mult ≤ mult * 128 ^ ((b :: bs).length - 1) :=
          Nat.le_mul_of_pos_right mult (Nat.pos_pow_of_pos _ (by omega))
        omega
      rw [if_neg hmle]
      rw [get_of_drop_cons hdropc (by omega)]
      cases bs with
      | nil =>
        have hb : b.val < 128 := hval
        have hacc : varintAcc mult [b] = Nat.land b.val 127 * mult := by
          simp [varintAcc]
        rw [if_neg (by rw [hacc] at hsize; simp only [List.length_singleton] at hsize; omega)]
        rw [if_pos ((land_128 b).mpr hb)]
        rw [hacc]
        simp
      | cons c cs =>
        obtain ⟨hb, hrest⟩ := hval
        have hacc : varintAcc mult (b :: c :: cs) =
            Nat.land b.val 127 * mult + varintAcc (mult * 128) (c :: cs) := by
          rw [varintAcc]
        have hsz2 : ¬ (hs + 1 + (psz + Nat.land b.val 127 * mult) > ds) := by
          rw [hacc] at hsize
          simp only [List.length_cons] at hsize ⊢
          omega
        rw [if_neg hsz2]
        rw [if_neg (by
          rw [land_128 b]
          omega)]
        have hdrop2 : data.drop (ps + (hs + 1)) = (c :: cs) ++ t2 := by
          rw [← Nat.add_assoc]
          exact drop_succ_of_drop_cons hdropc
        have hmult2 : (mult * 128) * 128 ^ ((c :: cs).length - 1) ≤ 2097152 := by
          have : (mult * 128) * 128 ^ ((c :: cs).length - 1) =
              mult * 128 ^ ((b :: c :: cs).length - 1) := by
            simp only [List.length_cons, Nat.add_sub_cancel]
            rw [Nat.mul_assoc, ← Nat.pow_succ']
          omega
        have := ih t2 f (hs + 1) (mult * 128) (psz + Nat.land b.val 127 * mult)
          hrest (by simp at hfuel ⊢; omega) hmult2 hdrop2
          (by rw [hacc] at hsize; simp only [List.length_cons] at hsize ⊢; omega)
        rw [this]
        rw [hacc]
        congr 1
        · simp only [List.length_cons]
          omega
        · omega

/-- On a buffer that ends inside a packet whose length field is the valid
varint `L2` (either the whole of `L2` is present but the remaining payload is
truncated, or the buffer ends inside `L2` itself), the varint loop either
reports `notFullHeader` (Python: `return parsed_size`) or `done` with a size
that fails the outer `header_size + payload_size > data_size` re-check.  In
particular it never reports `malformed` and never lets the outer loop emit a
packet. -/
theorem readVarintAux_trunc {data : List Byte} {ps ds : Nat} :
    ∀ (L2 q : List Byte) (fuel hs mult psz : Nat),
      ValidVarintTail L2 →
      L2.length ≤ fuel →
      mult * 128 ^ (L2.length - 1) ≤ 2097152 →
      data.drop (ps + hs) = q →
      ((∃ t, q = L2 ++ t) ∨ (∃ t, q ++ t = L2 ∧ t ≠ [])) →
      ds = hs + q.length →
      data.length = ps + ds →
      hs + L2.length + (psz + varintAcc mult L2) > ds →
      (readVarintAux data ps ds fuel hs mult psz = VarintResult.notFullHeader ∨
        ∃ hs2 psz2,
          readVarintAux data ps ds fuel hs mult psz = VarintResult.done hs2 psz2 ∧
            hs2 + psz2 > ds) := by
  intro L2
  induction L2 with
  | nil =>
    intro q fuel hs mult psz hval
    exact absurd hval (by simp [ValidVarintTail])
  | cons b bs ih =>
    intro q fuel hs mult psz hval hfuel hmult hdrop hq hds hlen htr
    cases fuel with
    | zero => simp at hfuel
    | succ f =>
      have hmle : ¬ mult > 2097152 := by
        have h1 : mult ≤ mult * 128 ^ ((b :: bs).length - 1) :=
          Nat.le_mul_of_pos_right mult (Nat.pos_pow_of_pos _ (by omega))
        omega
      cases q with
      | nil =>
        -- the buffer ends right at the length field: not full header
        left
        rw [readVarintAux]
        rw [dif_pos (by simp at hds; omega : ps + hs ≥ data.length)]
      | cons q0 q1 =>
        -- the head byte of the remaining bytes is b in both branches
        have hq0 : b = q0 ∧
            ((∃ t, q1 = bs ++ t) ∨ (∃ t, q1 ++ t = bs ∧ t ≠ [])) := by
          rcases hq with ⟨t, ht⟩ | ⟨t, ht, htne⟩
          · rw [List.cons_append] at ht
            injection ht with h1 h2
            exact ⟨h1.symm, Or.inl ⟨t, h2⟩⟩
          · rw [List.cons_append] at ht
            injection ht with h1 h2
            exact ⟨h1.symm, Or.inr ⟨t, h2, htne⟩⟩
        obtain ⟨rfl, hq1⟩ := hq0
        have hdropc : data.drop (ps + hs) = b :: q1 := hdrop
        rw [readVarintAux]
        rw [dif_neg (by simp only [List.length_cons] at hds; omega : ¬ ps + hs ≥ data.length)]
        rw [if_neg hmle]
        rw [get_of_drop_cons hdropc (by simp only [List.length_cons] at hds; omega)]
        by_cases hsz : hs + 1 + (psz + Nat.land b.val 127 * mult) > ds
        · right
          exact ⟨hs + 1, psz + Nat.land b.val 127 * mult, by rw [if_pos hsz], hsz⟩
        · rw [if_neg hsz]
          cases bs with
          | nil =>
            -- L2 = [b]: the truncation bound contradicts the passed size check
            exfalso
            have hacc : varintAcc mult [b] = Nat.land b.val 127 * mult := by
              simp [varintAcc]
            rw [hacc] at htr
            simp only [List.length_singleton] at htr
            omega
          | cons c cs =>
            obtain ⟨hb, hrest⟩ := hval
            rw [if_neg (by rw [land_128 b]; omega)]
            have hdrop2 : data.drop (ps + (hs + 1)) = q1 := by
              rw [← Nat.add_assoc]
              exact drop_succ_of_drop_cons hdropc
            have hacc : varintAcc mult (b :: c :: cs) =
                Nat.land b.val 127 * mult + varintAcc (mult * 128) (c :: cs) := by
              rw [varintAcc]
            have hmult2 : (mult * 128) * 128 ^ ((c :: cs).length - 1) ≤ 2097152 := by
              have : (mult * 128) * 128 ^ ((c :: cs).length - 1) =
                  mult * 128 ^ ((b :: c :: cs).length - 1) := by
                simp only [List.length_cons, Nat.add_sub_cancel]
                rw [Nat.mul_assoc, ← Nat.pow_succ']
              omega
            exact ih q1 f (hs + 1) (mult * 128) (psz + Nat.land b.val 127 * mult)
              hrest (by simp at hfuel ⊢; omega) hmult2 hdrop2 hq1
              (by simp only [List.length_cons] at hds ⊢; omega) (by omega)
              (by rw [hacc] at htr; simp only [List.length_cons] at htr ⊢; omega)

/-- If the bytes `CB` at `data[ps+hs..]` all carry the continuation bit, one
more byte follows them in the buffer, the multiplier overflows the
`mult > 2097152` threshold by the time that extra byte is read, and the
running `not enough data` checks cannot fire, then the varint loop reports
the malformed sentinel. -/
theorem readVarintAux_overflow {data : List Byte} {ps ds : Nat} :
    ∀ (CB : List Byte) (b5 : Byte) (rest : List Byte) (fuel hs mult psz : Nat),
      (∀ b ∈ CB, 128 ≤ b.val) →
      CB.length + 1 ≤ fuel →
      2097152 < mult * 128 ^ CB.length →
      data.drop (ps + hs) = CB ++ b5 :: rest →
      hs + CB.length + (psz + varintAcc mult CB) ≤ ds →
      readVarintAux data ps ds fuel hs mult psz = VarintResult.malformed := by
  intro CB
  induction CB with
  | nil =>
    intro b5 rest fuel hs mult psz hcont hfuel hmult hdrop hsize
    have hdropc : data.drop (ps + hs) = b5 :: rest := by simpa using hdrop
    have hlen := length_of_drop_cons hdropc
    cases fuel with
    | zero => simp at hfuel
    | succ f =>
      rw [readVarintAux]
      rw [dif_neg (by omega : ¬ ps + hs ≥ data.length)]
      rw [if_pos (by simpa using hmult)]
  | cons b CB' ih =>
    intro b5 rest fuel hs mult psz hcont hfuel hmult hdrop hsize
    have hdropc : data.drop (ps + hs) = b :: (CB' ++ b5 :: rest) := by simpa using hdrop
    have hlen := length_of_drop_cons hdropc
    have hb : 128 ≤ b.val := hcont b (by simp)
    cases fuel with
    | zero => simp at hfuel
    | succ f =>
      rw [readVarintAux]
      rw [dif_neg (by omega : ¬ ps + hs ≥ data.length)]
      by_cases hm : mult > 2097152
      · rw [if_pos hm]
      · rw [if_neg hm]
        rw [get_of_drop_cons hdropc (by omega)]
        have hacc : varintAcc mult (b :: CB') =
            Nat.land b.val 127 * mult + varintAcc (mult * 128) CB' := by
          rw [varintAcc]
        rw [if_neg (by
          rw [hacc] at hsize
          simp only [List.length_cons] at hsize
          omega)]
        rw [if_neg (by rw [land_128 b]; omega)]
        exact ih b5 rest f (hs + 1) (mult * 128) (psz + Nat.land b.val 127 * mult)
          (fun x hx => hcont x (by simp [hx])) (by simp at hfuel ⊢; omega)
          (by
            have : (mult * 128) * 128 ^ CB'.length = mult * 128 ^ (b :: CB').length := by
              simp only [List.length_cons]
              rw [Nat.mul_assoc, ← Nat.pow_succ']
            omega)
          (by rw [← Nat.add_assoc]; exact drop_succ_of_drop_cons hdropc)
          (by rw [hacc] at hsize; simp only [List.length_cons] at hsize ⊢; omega)

/-! ## Splitting concatenations -/

/-- If `a ++ b = c ++ d` and `c` is no longer than `a`, then `a` begins with
`c`. -/
theorem append_eq_split {a b c d : List Byte} (h : a ++ b = c ++ d)
    (hlen : c.length ≤ a.length) : a = c ++ a.drop c.length := by
  have h1 : (a ++ b).take c.length = c := by
    rw [h]
    exact List.take_left c d
  have h2 : (a ++ b).take c.length = a.take c.length := by
    rw [List.take_append_eq_append_take]
    have : c.length - a.length = 0 := by omega
    rw [this]
    simp
  have h3 : a.take c.length = c := by rw [← h2, h1]
  conv_lhs => rw [← List.take_append_drop c.length a]
  rw [h3]

/-- If `a ++ b = c ++ d` and `a` is shorter than `c`, then `a` is a proper
prefix of `c`. -/
theorem append_eq_split_lt {a b c d : List Byte} (h : a ++ b = c ++ d)
    (hlen : a.length < c.length) : a ++ c.drop a.length = c ∧ c.drop a.length ≠ [] := by
  have h1 : (c ++ d).take a.length = a := by
    rw [← h]
    exact List.take_left a b
  have h2 : (c ++ d).take a.length = c.take a.length := by
    rw [List.take_append_eq_append_take]
    have : a.length - c.length = 0 := by omega
    rw [this]
    simp
  have h3 : c.take a.length = a := by rw [← h2, h1]
  constructor
  · conv_rhs => rw [← List.take_append_drop a.length c]
    rw [h3]
  · intro hnil
    have := List.length_drop a.length c
    rw [hnil] at this
    simp at this
    omega

/-! ## The outer loop stops, consuming nothing, on a truncated packet -/

/-- On a buffer whose bytes from position `ps` form a proper prefix of a
single well-formed packet (or nothing at all), the outer loop consumes
nothing and emits nothing, for any fuel. -/
theorem readPacketAux_stop {data : List Byte} :
    ∀ (fuel ps ds : Nat) (hle : ps + ds ≤ data.length) (pp : List Byte),
      data.drop ps = pp →
      ps + ds = data.length →
      TruncatedPacket pp →
      readPacketAux data fuel ps ds hle = ((ps : Int), []) := by
  intro fuel ps ds hle pp hdrop hlen htr
  have hppl : ds = pp.length := by
    have := List.length_drop ps data
    rw [hdrop] at this
    omega
  cases fuel with
  | zero => rw [readPacketAux]
  | succ f =>
    rw [readPacketAux]
    by_cases hds : ds < 2
    · rw [dif_pos hds]
    · rw [dif_neg hds]
      -- pp has at least two bytes, so it is a proper prefix of a packet
      rcases htr with rfl | ⟨w, t, hwv, hpp, htne⟩
      · simp at hppl
        omega
      · -- peel the command byte off pp
        cases pp with
        | nil => simp at hppl; omega
        | cons c0 q =>
          obtain ⟨⟨hvt, hv4⟩, hplen⟩ := hwv
          have henc : WirePacket.encode w = w.cmd :: (w.lenBytes ++ w.payload) := rfl
          rw [henc] at hpp
          rw [List.cons_append] at hpp
          injection hpp with hc0 hq
          -- q ++ t = lenBytes ++ payload; split on where q ends
          have hq2 : ((∃ t2, q = w.lenBytes ++ t2) ∨
              (∃ t2, q ++ t2 = w.lenBytes ∧ t2 ≠ [])) ∧
              1 + w.lenBytes.length + (0 + varintAcc 1 w.lenBytes) > ds := by
            have hvacc : varintAcc 1 w.lenBytes = w.payload.length := by
              rw [varintAcc_eq, Nat.one_mul, hplen]
            by_cases hql : w.lenBytes.length ≤ q.length
            · have hsplit := append_eq_split hq hql
              constructor
              · exact Or.inl ⟨q.drop w.lenBytes.length, hsplit⟩
              · -- q = lenBytes ++ t2 and t2 ++ t = payload with t nonempty
                have ht2 : (q.drop w.lenBytes.length) ++ t = w.payload := by
                  have : (w.lenBytes ++ q.drop w.lenBytes.length) ++ t =
                      w.lenBytes ++ w.payload := by rw [← hsplit]; exact hq
                  rw [List.append_assoc] at this
                  exact List.append_cancel_left this
                have hlt : (q.drop w.lenBytes.length).length < w.payload.length := by
                  have := congrArg List.length ht2
                  simp only [List.length_append] at this
                  have htlen : 0 < t.length := List.length_pos.mpr htne
                  omega
                have hqlen : q.length =
                    w.lenBytes.length + (q.drop w.lenBytes.length).length := by
                  have := congrArg List.length hsplit
                  simp only [List.length_append] at this
                  omega
                simp only [List.length_cons] at hppl
                rw [hvacc]
                omega
            · push_neg at hql
              obtain ⟨hsplit, hne⟩ := append_eq_split_lt hq hql
              constructor
              · exact Or.inr ⟨w.lenBytes.drop q.length, hsplit, hne⟩
              · simp only [List.length_cons] at hppl
                omega
          have hm : (1 : Nat) * 128 ^ (w.lenBytes.length - 1) ≤ 2097152 := by
            have : (128 : Nat) ^ (w.lenBytes.length - 1) ≤ 128 ^ 3 :=
              Nat.pow_le_pow_right (by omega) (by omega)
            norm_num at this ⊢
            omega
          have htrunc := readVarintAux_trunc w.lenBytes q 5 1 1 0 hvt (by omega) hm
            (drop_succ_of_drop_cons hdrop)
            hq2.1 (by simp only [List.length_cons] at hppl; omega) (by omega) hq2.2
          rcases htrunc with hv | ⟨hs2, psz2, hv, hgt⟩
          · rw [hv]
          · rw [hv]
            dsimp only
            rw [dif_pos hgt]

/-- A valid varint tail is non-empty. -/
theorem validVarintTail_ne_nil {L : List Byte} (h : ValidVarintTail L) : 1 ≤ L.length := by
  cases L with
  | nil => exact absurd h (by simp [ValidVarintTail])
  | cons b bs => simp

/-- The multiplier bound for a length field of at most 4 bytes. -/
theorem pow128_le {n : Nat} (h : n ≤ 4) : 1 * 128 ^ (n - 1) ≤ 2097152 := by
  have h2 : (128 : Nat) ^ (n - 1) ≤ 128 ^ 3 :=
    Nat.pow_le_pow_right (by omega) (by omega)
  norm_num at h2 ⊢
  omega

/-- `readPacketAux` only depends on the numeric values of its cursor
arguments (the bound proofs are irrelevant). -/
theorem readPacketAux_congr {data : List Byte} {fuel : Nat} {a b a2 b2 : Nat}
    (ha : a = a2) (hb : b = b2) (h1 : a + b ≤ data.length) (h2 : a2 + b2 ≤ data.length) :
    readPacketAux data fuel a b h1 = readPacketAux data fuel a2 b2 h2 := by
  subst ha
  subst hb
  rfl

/-! ## The outer loop consumes one complete packet and continues -/

/-- With a complete well-formed packet laid out at `data[ps..]`, one
iteration of the outer loop emits exactly `(cmd, payload)` and continues
after the packet. -/
theorem readPacketAux_cons_step {data : List Byte} {ps ds fuel : Nat}
    (hle : ps + ds ≤ data.length)
    (w : WirePacket) (hw : w.Valid) (tail : List Byte)
    (hdrop : data.drop ps = w.encode ++ tail)
    (hlen : ps + ds = data.length)
    (hle2 : (ps + w.encode.length) + (ds - w.encode.length) ≤ data.length) :
    readPacketAux data (fuel + 1) ps ds hle =
      ((readPacketAux data fuel (ps + w.encode.length) (ds - w.encode.length) hle2).1,
        (w.cmd, w.payload) ::
          (readPacketAux data fuel (ps + w.encode.length) (ds - w.encode.length) hle2).2) := by
  have henc : WirePacket.encode w = w.cmd :: (w.lenBytes ++ w.payload) := rfl
  obtain ⟨⟨hvt, hv4⟩, hplen⟩ := hw
  have hL1 : 1 ≤ w.lenBytes.length := validVarintTail_ne_nil hvt
  have hdropc : data.drop ps = w.cmd :: (w.lenBytes ++ (w.payload ++ tail)) := by
    rw [hdrop, henc]
    simp [List.append_assoc]
  have hencl : w.encode.length = 1 + (w.lenBytes.length + w.payload.length) := by
    rw [henc]
    simp
    omega
  have hdsl : ds = w.encode.length + tail.length := by
    have h0 := List.length_drop ps data
    rw [hdrop] at h0
    simp only [List.length_append] at h0
    omega
  have hvacc : varintAcc 1 w.lenBytes = w.payload.length := by
    rw [varintAcc_eq, Nat.one_mul, hplen]
  rw [readPacketAux]
  rw [dif_neg (by omega : ¬ ds < 2)]
  have hv := @readVarintAux_done data ps ds w.lenBytes (w.payload ++ tail) 5 1 1 0
    hvt (by omega) (pow128_le hv4) (drop_succ_of_drop_cons hdropc) (by omega)
  rw [hv]
  dsimp only
  have hszc : ¬ (1 + w.lenBytes.length + (0 + varintAcc 1 w.lenBytes) > ds) := by omega
  rw [dif_neg hszc]
  rw [get_of_drop_cons hdropc (by omega)]
  have hdrop3 : data.drop (ps + (1 + w.lenBytes.length)) = w.payload ++ tail := by
    have ha : ps + (1 + w.lenBytes.length) = ps + 1 + w.lenBytes.length := by omega
    rw [ha, ← List.drop_drop, drop_succ_of_drop_cons hdropc]
    exact List.drop_left _ _
  rw [hdrop3]
  have htake : (w.payload ++ tail).take (0 + varintAcc 1 w.lenBytes) = w.payload := by
    rw [Nat.zero_add, hvacc]
    exact List.take_left _ _
  rw [htake]
  rw [readPacketAux_congr
    (show ps + (1 + w.lenBytes.length + (0 + varintAcc 1 w.lenBytes)) = ps + w.encode.length by
      omega)
    (show ds - (1 + w.lenBytes.length + (0 + varintAcc 1 w.lenBytes)) = ds - w.encode.length by
      omega)
    (by omega) hle2]

/-! ## Fuel sufficiency and bounds for the outer loop -/

/-- The fuel argument of `readPacketAux` is irrelevant as soon as it is at
least `data_size`: every loop iteration consumes at least two bytes, so the
Python `while True` loop terminates and our fuel never runs out.  This is the
formal content of termination of `_read_packet`. -/
theorem readPacketAux_fuel {data : List Byte} :
    ∀ {fuel fuel2 ps ds : Nat} (hle : ps + ds ≤ data.length),
      ds ≤ fuel → ds ≤ fuel2 →
      readPacketAux data fuel ps ds hle = readPacketAux data fuel2 ps ds hle := by
  intro fuel
  induction fuel with
  | zero =>
    intro fuel2 ps ds hle h1 h2
    have hds : ds = 0 := by omega
    subst hds
    cases fuel2 with
    | zero => rfl
    | succ g =>
      rw [readPacketAux, readPacketAux]
      simp
  | succ n ih =>
    intro fuel2 ps ds hle h1 h2
    cases fuel2 with
    | zero =>
      have hds : ds = 0 := by omega
      subst hds
      rw [readPacketAux, readPacketAux]
      simp
    | succ g =>
      rw [readPacketAux, readPacketAux]
      by_cases hds : ds < 2
      · rw [dif_pos hds, dif_pos hds]
      · rw [dif_neg hds, dif_neg hds]
        cases hv : readVarintAux data ps ds 5 1 1 0 with
        | notFullHeader => rfl
        | malformed => rfl
        | done hs psz =>
          have hlt : 1 < hs := readVarintAux_done_lt hv
          dsimp only
          by_cases hsz : hs + psz > ds
          · rw [dif_pos hsz, dif_pos hsz]
          · rw [dif_neg hsz, dif_neg hsz]
            rw [@ih g (ps + (hs + psz)) (ds - (hs + psz)) (by omega) (by omega) (by omega)]

/-! ## Decoding a concatenation of complete packets -/

/-- Unfolding `encodeList` over a cons. -/
theorem encodeList_cons (w : WirePacket) (ws : List WirePacket) :
    encodeList (w :: ws) = w.encode ++ encodeList ws := by
  simp [encodeList]

/-- A well-formed packet encodes to at least two bytes. -/
theorem encode_length_two {w : WirePacket} (hw : w.Valid) : 2 ≤ w.encode.length := by
  obtain ⟨⟨hvt, _⟩, _⟩ := hw
  have h1 := validVarintTail_ne_nil hvt
  show 2 ≤ (w.cmd :: (w.lenBytes ++ w.payload)).length
  simp
  omega

/-- Decoding a buffer that starts (at `ps`) with the encodings of the
well-formed packets `ws` first emits exactly `packetsOf ws` and then behaves
like decoding the rest, with the cursor advanced past `ws` (stated for any
sufficient continuation fuel). -/
theorem readPacketAux_skip :
    ∀ (ws : List WirePacket) {data : List Byte} (fuel fuel2 ps ds : Nat)
      (hle : ps + ds ≤ data.length) (tail : List Byte),
      (∀ p ∈ ws, p.Valid) →
      data.drop ps = encodeList ws ++ tail →
      ps + ds = data.length →
      ds ≤ fuel →
      ds - (encodeList ws).length ≤ fuel2 →
      ∀ (hle2 : (ps + (encodeList ws).length) + (ds - (encodeList ws).length) ≤ data.length),
      readPacketAux data fuel ps ds hle =
        ((readPacketAux data fuel2 (ps + (encodeList ws).length)
            (ds - (encodeList ws).length) hle2).1,
          packetsOf ws ++
            (readPacketAux data fuel2 (ps + (encodeList ws).length)
              (ds - (encodeList ws).length) hle2).2) := by
  intro ws
  induction ws with
  | nil =>
    intro data fuel fuel2 ps ds hle tail hval hdrop hlen hf1 hf2 hle2
    exact readPacketAux_fuel hle hf1 hf2
  | cons w ws' ih =>
    intro data fuel fuel2 ps ds hle tail hval hdrop hlen hf1 hf2 hle2
    have hwv : w.Valid := hval w (by simp)
    have hdrop1 : data.drop ps = w.encode ++ (encodeList ws' ++ tail) := by
      rw [hdrop, encodeList_cons, List.append_assoc]
    have henc2 := encode_length_two hwv
    have hdsl : ds = w.encode.length + ((encodeList ws').length + tail.length) := by
      have h0 := List.length_drop ps data
      rw [hdrop1] at h0
      simp only [List.length_append] at h0
      omega
    have hlenc : (encodeList (w :: ws')).length = w.encode.length + (encodeList ws').length := by
      rw [encodeList_cons]
      simp
    cases fuel with
    | zero =>
      exfalso
      omega
    | succ f =>
      have hle2mid : (ps + w.encode.length) + (ds - w.encode.length) ≤ data.length := by
        omega
      rw [readPacketAux_cons_step hle w hwv (encodeList ws' ++ tail) hdrop1 hlen hle2mid]
      have hdropmid : data.drop (ps + w.encode.length) = encodeList ws' ++ tail := by
        rw [← List.drop_drop, hdrop1]
        exact List.drop_left _ _
      have hle2fin : ((ps + w.encode.length) + (encodeList ws').length) +
          ((ds - w.encode.length) - (encodeList ws').length) ≤ data.length := by
        omega
      rw [ih f fuel2 (ps + w.encode.length) (ds - w.encode.length) hle2mid tail
        (fun p hp => hval p (by simp [hp])) hdropmid (by omega) (by omega) (by omega) hle2fin]
      dsimp only
      rw [readPacketAux_congr
        (show (ps + w.encode.length) + (encodeList ws').length =
            ps + (encodeList (w :: ws')).length by omega)
        (show (ds - w.encode.length) - (encodeList ws').length =
            ds - (encodeList (w :: ws')).length by omega)
        (by omega) hle2]
      simp [packetsOf]

/-- The return value of the outer loop is `-1` or lies between the entry
`parsed_size` and `parsed_size + data_size`. -/
theorem readPacketAux_le {data : List Byte} :
    ∀ {fuel ps ds : Nat} (hle : ps + ds ≤ data.length),
      (readPacketAux data fuel ps ds hle).1 = -1 ∨
        ((ps : Int) ≤ (readPacketAux data fuel ps ds hle).1 ∧
          (readPacketAux data fuel ps ds hle).1 ≤ ((ps + ds : Nat) : Int)) := by
  intro fuel
  induction fuel with
  | zero =>
    intro ps ds hle
    right
    rw [readPacketAux]
    constructor
    · exact le_refl _
    · omega
  | succ n ih =>
    intro ps ds hle
    rw [readPacketAux]
    by_cases hds : ds < 2
    · rw [dif_pos hds]
      right
      exact ⟨le_refl _, by omega⟩
    · rw [dif_neg hds]
      cases hv : readVarintAux data ps ds 5 1 1 0 with
      | notFullHeader =>
        right
        dsimp only
        exact ⟨le_refl _, by omega⟩
      | malformed => left; rfl
      | done hs psz =>
        have hlt : 1 < hs := readVarintAux_done_lt hv
        dsimp only
        by_cases hsz : hs + psz > ds
        · rw [dif_pos hsz]
          right
          exact ⟨le_refl _, by omega⟩
        · rw [dif_neg hsz]
          rcases @ih (ps + (hs + psz)) (ds - (hs + psz)) (by omega) with h | ⟨ha, hb⟩
          · left
            exact h
          · right
            constructor
            · refine le_trans ?_ ha
              omega
            · refine le_trans hb ?_
              omega

/-! ## Top-level behaviour of the frame decoder -/

/-- If the outer loop reaches a position from which the buffer holds a
command byte, four continuation bytes, a fifth length byte and anything
after, and the running size checks cannot fire, `_read_packet` returns the
malformed sentinel from that iteration.  Works for any positive fuel. -/
theorem readPacketAux_overflow_step {data : List Byte} {ps ds fuel : Nat}
    (hle : ps + ds ≤ data.length)
    (c b1 b2 b3 b4 b5 : Byte) (r : List Byte)
    (hdrop : data.drop ps = c :: b1 :: b2 :: b3 :: b4 :: b5 :: r)
    (hfuel : 1 ≤ fuel)
    (hb1 : 128 ≤ b1.val) (hb2 : 128 ≤ b2.val) (hb3 : 128 ≤ b3.val) (hb4 : 128 ≤ b4.val)
    (hfit : 5 + varintAcc 1 [b1, b2, b3, b4] ≤ ds) :
    readPacketAux data fuel ps ds hle = ((-1 : Int), []) := by
  obtain ⟨f, rfl⟩ : ∃ f, fuel = f + 1 := ⟨fuel - 1, by omega⟩
  have hlen := length_of_drop_cons hdrop
  rw [readPacketAux]
  rw [dif_neg (by
    simp only [List.length_cons] at hlen
    omega : ¬ ds < 2)]
  have hv := @readVarintAux_overflow data ps ds [b1, b2, b3, b4] b5 r 5 1 1 0
    (by
      intro b hb
      simp only [List.mem_cons, List.not_mem_nil, or_false] at hb
      rcases hb with rfl | rfl | rfl | rfl <;> assumption)
    (by simp)
    (by norm_num)
    (drop_succ_of_drop_cons hdrop)
    (by simp only [List.length_cons, List.length_nil]; omega)
  rw [hv]

/-- Full decoder run on `encodeList ws ++ pp` where `ws` are complete
well-formed packets and `pp` is empty or a proper prefix of a further
well-formed packet: exactly the packets of `ws` are emitted, in order, and
exactly their bytes are consumed. -/
theorem readPacket_spec (ws : List WirePacket) (pp : List Byte)
    (hval : ∀ p ∈ ws, p.Valid) (htr : TruncatedPacket pp) :
    readPacket (encodeList ws ++ pp) =
      (((encodeList ws).length : Int), packetsOf ws) := by
  have hlen : (encodeList ws ++ pp).length = (encodeList ws).length + pp.length := by
    simp
  rw [readPacket]
  rw [readPacketAux_skip ws (encodeList ws ++ pp).length
      ((encodeList ws ++ pp).length - (encodeList ws).length) 0
      (encodeList ws ++ pp).length (by omega) pp hval
      (by simp) (by omega) (by omega) (by omega) (by omega)]
  rw [readPacketAux_stop _ _ _ _ pp
      (by rw [Nat.zero_add]; exact List.drop_left _ _)
      (by omega) htr]
  simp

/-- Full decoder run on `encodeList ws` followed by a header whose first four
length bytes all carry the continuation bit, a fifth length byte being
present, when the buffer is long enough that the running size checks cannot
fire: the packets of `ws` are emitted and the call returns `-1`. -/
theorem readPacket_malformed_after (ws : List WirePacket) (c b1 b2 b3 b4 b5 : Byte)
    (r : List Byte) (hval : ∀ p ∈ ws, p.Valid)
    (hb1 : 128 ≤ b1.val) (hb2 : 128 ≤ b2.val) (hb3 : 128 ≤ b3.val) (hb4 : 128 ≤ b4.val)
    (hfit : 5 + varintVal [b1, b2, b3, b4] ≤ 6 + r.length) :
    readPacket (encodeList ws ++ (c :: b1 :: b2 :: b3 :: b4 :: b5 :: r)) =
      ((-1 : Int), packetsOf ws) := by
  have hacc := varintAcc_eq [b1, b2, b3, b4] 1
  have hlen : (encodeList ws ++ (c :: b1 :: b2 :: b3 :: b4 :: b5 :: r)).length =
      (encodeList ws).length + (6 + r.length) := by
    simp
    omega
  rw [readPacket]
  rw [readPacketAux_skip ws
      (encodeList ws ++ (c :: b1 :: b2 :: b3 :: b4 :: b5 :: r)).length
      ((encodeList ws ++ (c :: b1 :: b2 :: b3 :: b4 :: b5 :: r)).length -
        (encodeList ws).length) 0
      (encodeList ws ++ (c :: b1 :: b2 :: b3 :: b4 :: b5 :: r)).length (by omega)
      (c :: b1 :: b2 :: b3 :: b4 :: b5 :: r) hval
      (by simp) (by omega) (by omega) (by omega) (by omega)]
  rw [readPacketAux_overflow_step (by omega) c b1 b2 b3 b4 b5 r
      (by rw [Nat.zero_add]; exact List.drop_left _ _)
      (by omega) hb1 hb2 hb3 hb4 (by omega)]
  simp

/-! ## The incremental read loop agrees with whole-buffer decoding -/

/-- `encodeList` distributes over append. -/
theorem encodeList_append (a b : List WirePacket) :
    encodeList (a ++ b) = encodeList a ++ encodeList b := by
  simp [encodeList]

/-- A residual head prefix is a truncated packet. -/
theorem truncatedHead_packet {pp : List Byte} {ws : List WirePacket}
    (hval : ∀ p ∈ ws, p.Valid) (h : TruncatedHead pp ws) : TruncatedPacket pp := by
  cases ws with
  | nil => exact Or.inl h
  | cons w rest =>
    obtain ⟨t, ht, htne⟩ := h
    exact Or.inr ⟨w, t, hval w (by simp), ht, htne⟩

/-- Any prefix of the concatenated encodings of well-formed packets splits as
a run of whole packets followed by a proper prefix of the next packet. -/
theorem prefix_decomp :
    ∀ (ws : List WirePacket) (q t : List Byte),
      (∀ p ∈ ws, p.Valid) →
      q ++ t = encodeList ws →
      ∃ wsA wsB pp, ws = wsA ++ wsB ∧ q = encodeList wsA ++ pp ∧ TruncatedHead pp wsB := by
  intro ws
  induction ws with
  | nil =>
    intro q t hval happ
    have hq : q = [] := by
      have h0 := congrArg List.length happ
      simp only [List.length_append] at h0
      simp only [encodeList, List.map_nil, List.flatten_nil, List.length_nil] at h0
      exact List.eq_nil_of_length_eq_zero (by omega)
    subst hq
    exact ⟨[], [], [], rfl, by simp [encodeList], rfl⟩
  | cons w rest ih =>
    intro q t hval happ
    rw [encodeList_cons] at happ
    by_cases hlq : w.encode.length ≤ q.length
    · have hsplit := append_eq_split happ hlq
      have happ2 : q.drop w.encode.length ++ t = encodeList rest := by
        have h0 : (w.encode ++ q.drop w.encode.length) ++ t =
            w.encode ++ encodeList rest := by
          rw [← hsplit]
          exact happ
        rw [List.append_assoc] at h0
        exact List.append_cancel_left h0
      obtain ⟨wsA, wsB, pp, h1, h2, h3⟩ := ih (q.drop w.encode.length) t
        (fun p hp => hval p (by simp [hp])) happ2
      refine ⟨w :: wsA, wsB, pp, ?_, ?_, h3⟩
      · rw [h1]
        rfl
      · rw [hsplit, h2, encodeList_cons, List.append_assoc]
    · push_neg at hlq
      obtain ⟨hsplit, hne⟩ := append_eq_split_lt happ hlq
      exact ⟨[], w :: rest, q, rfl, by simp [encodeList],
        ⟨w.encode.drop q.length, hsplit, hne⟩⟩

/-- Invariant of the incremental read loop: if the residual buffer is a
proper prefix of the remaining packet stream and the remaining chunks supply
exactly the rest of that stream, the loop emits exactly the remaining
packets. -/
theorem feedChunks_inv :
    ∀ (chunks : List (List Byte)) (buf : List Byte) (ws : List WirePacket),
      (∀ p ∈ ws, p.Valid) →
      TruncatedHead buf ws →
      buf ++ chunks.flatten = encodeList ws →
      feedChunks chunks buf = packetsOf ws := by
  intro chunks
  induction chunks with
  | nil =>
    intro buf ws hval hhead happ
    simp only [List.flatten_nil, List.append_nil] at happ
    cases ws with
    | nil => rw [feedChunks]; simp [packetsOf]
    | cons w rest =>
      exfalso
      obtain ⟨t, ht, htne⟩ := hhead
      have h1 := congrArg List.length ht
      have h2 := congrArg List.length happ
      rw [encodeList_cons] at h2
      simp only [List.length_append] at h1 h2
      have h3 := List.length_pos.mpr htne
      omega
  | cons c cs ih =>
    intro buf ws hval hhead happ
    rw [feedChunks]
    have happ2 : (buf ++ c) ++ cs.flatten = encodeList ws := by
      rw [List.append_assoc]
      simpa using happ
    obtain ⟨wsA, wsB, pp, hws, hbuf2, hh⟩ := prefix_decomp ws (buf ++ c) cs.flatten hval happ2
    have hvalA : ∀ p ∈ wsA, p.Valid := fun p hp => hval p (by rw [hws]; simp [hp])
    have hvalB : ∀ p ∈ wsB, p.Valid := fun p hp => hval p (by rw [hws]; simp [hp])
    have hr : readPacket (buf ++ c) = (((encodeList wsA).length : Int), packetsOf wsA) := by
      rw [hbuf2]
      exact readPacket_spec wsA pp hvalA (truncatedHead_packet hvalB hh)
    rw [hr]
    dsimp only
    rw [if_neg (by omega : ¬ ((encodeList wsA).length : Int) = -1)]
    have hdrop : (buf ++ c).drop ((encodeList wsA).length : Int).toNat = pp := by
      rw [Int.toNat_natCast, hbuf2]
      exact List.drop_left _ _
    rw [hdrop]
    have happB : pp ++ cs.flatten = encodeList wsB := by
      have h0 : (encodeList wsA ++ pp) ++ cs.flatten =
          encodeList wsA ++ encodeList wsB := by
        rw [← hbuf2, happ2, hws, encodeList_append]
      rw [List.append_assoc] at h0
      exact List.append_cancel_left h0
    rw [ih pp wsB hvalB hh happB]
    rw [hws]
    simp [packetsOf]

/-! ## Claim theorems -/

/-- C1 counterexample: the buffer `10 FF 80 80 80 80` holds a command byte
followed by five length bytes whose first four (`FF 80 80 80`) all have bit
0x80 set, yet `_read_packet` returns 0, not the malformed sentinel `-1`: the
interleaved `not enough data` check fires after the first length byte
(`2 + 127 > 6`) and the whole call stops before the fifth length byte is ever
read. -/
theorem readPacket_five_cont_bytes_not_always_malformed :
    (128 ≤ (0xff : Byte).val ∧ 128 ≤ (0x80 : Byte).val) ∧
    readPacket [0x10, 0xff, 0x80, 0x80, 0x80, 0x80] = (0, []) ∧
    ((0 : Int) ≠ -1) := by
  decide

/-- C1 (amended): for every input buffer holding a command byte followed by a
remaining-length varint with 5 or more continuation bytes (the first four
length bytes all have bit 0x80 set), `_read_packet` reports the
malformed-stream sentinel `-1`, regardless of the values of those length
bytes and of any trailing payload bytes, PROVIDED the buffer is long enough
that the interleaved not-enough-data check cannot fire before the fifth
length byte is read: `5 + value(first four length bytes) ≤ len(buffer)`. -/
theorem readPacket_fifth_byte_overflow (c b1 b2 b3 b4 b5 : Byte) (r : List Byte)
    (hb1 : 128 ≤ b1.val) (hb2 : 128 ≤ b2.val) (hb3 : 128 ≤ b3.val) (hb4 : 128 ≤ b4.val)
    (hfit : 5 + varintVal [b1, b2, b3, b4] ≤
      (c :: b1 :: b2 :: b3 :: b4 :: b5 :: r).length) :
    readPacket (c :: b1 :: b2 :: b3 :: b4 :: b5 :: r) = (-1, []) := by
  have hlen : (c :: b1 :: b2 :: b3 :: b4 :: b5 :: r).length = 6 + r.length := by
    simp
    omega
  exact readPacket_malformed_after [] c b1 b2 b3 b4 b5 r
    (fun p hp => absurd hp (List.not_mem_nil p)) hb1 hb2 hb3 hb4 (by omega)

/-- C1 witness: the amended theorem applied at the concrete buffer
`00 80 80 80 80 80`. -/
theorem readPacket_fifth_byte_overflow_witness :
    readPacket [0x00, 0x80, 0x80, 0x80, 0x80, 0x80] = (-1, []) :=
  readPacket_fifth_byte_overflow 0x00 0x80 0x80 0x80 0x80 0x80 []
    (by decide) (by decide) (by decide) (by decide) (by decide)

/-- C2: for every sequence of complete well-formed packets and every split of
their concatenation into chunks, feeding the chunks incrementally the way
the read loop does (append chunk to the residual buffer, call
`_read_packet`, trim by the consumed count) emits exactly the same packets
in exactly the same order as calling `_read_packet` once on the whole
concatenation. -/
theorem feedChunks_eq_whole (ws : List WirePacket) (chunks : List (List Byte))
    (hval : ∀ p ∈ ws, p.Valid) (hjoin : chunks.flatten = encodeList ws) :
    feedChunks chunks [] = (readPacket chunks.flatten).2 := by
  have h1 : feedChunks chunks [] = packetsOf ws := by
    apply feedChunks_inv chunks [] ws hval _ (by simpa using hjoin)
    cases ws with
    | nil => rfl
    | cons w rest =>
      exact ⟨w.encode, by simp, by simp [WirePacket.encode]⟩
  have h2 : readPacket chunks.flatten = (((encodeList ws).length : Int), packetsOf ws) := by
    rw [hjoin]
    have h0 := readPacket_spec ws [] hval (Or.inl rfl)
    simpa using h0
  rw [h1, h2]

/-- C2 witness: two packets (`e0 00` and `30 01 07`) fed in three ragged
chunks produce the same emission as one call on the concatenation. -/
theorem feedChunks_eq_whole_witness :
    feedChunks [[0xe0], [0x00, 0x30], [0x01, 0x07]] [] =
      (readPacket ([[0xe0], [0x00, 0x30], [0x01, 0x07]] : List (List Byte)).flatten).2 :=
  feedChunks_eq_whole [⟨0xe0, [0x00], []⟩, ⟨0x30, [0x01], [0x07]⟩]
    [[0xe0], [0x00, 0x30], [0x01, 0x07]] (by decide) (by decide)

/-- C3: on every connection loss, `connection_lost` clears the Connection
Gate, enqueues exactly one `(DISCONNECT, b'')` pseudo-packet into the
inbound queue, cancels the read-loop task if its handle is still held and
releases the handle, and replaces `self._queue` with a fresh empty one, so a
re-fetched queue holds no packet from the prior connection. -/
theorem connection_lost_spec (s : ProtocolState) :
    (connection_lost s).connected = false ∧
    (connection_lost s).connQueue = s.connQueue ++ [(DISCONNECT, [])] ∧
    (connection_lost s).readLoopFuture = none ∧
    (∀ tid, s.readLoopFuture = some tid →
      (connection_lost s).cancelledTasks = s.cancelledTasks ++ [tid]) ∧
    (s.readLoopFuture = none →
      (connection_lost s).cancelledTasks = s.cancelledTasks) ∧
    (connection_lost s).queueContents = [] ∧
    (connection_lost s).queueGen = s.queueGen + 1 := by
  cases hf : s.readLoopFuture with
  | none =>
    simp [connection_lost, base_connection_lost, hf]
  | some tid =>
    simp [connection_lost, base_connection_lost, hf]

/-- C3 witness: the lifecycle theorem applied to a concrete connected state
holding a stale queued packet and a live task handle. -/
theorem connection_lost_spec_witness :
    (connection_lost ⟨true, [], 0, [(0x30, [0x01])], some 5, []⟩).connected = false ∧
    (connection_lost ⟨true, [], 0, [(0x30, [0x01])], some 5, []⟩).connQueue =
      [(DISCONNECT, [])] ∧
    (connection_lost ⟨true, [], 0, [(0x30, [0x01])], some 5, []⟩).readLoopFuture = none ∧
    (connection_lost ⟨true, [], 0, [(0x30, [0x01])], some 5, []⟩).cancelledTasks = [5] ∧
    (connection_lost ⟨true, [], 0, [(0x30, [0x01])], some 5, []⟩).queueContents = [] ∧
    (connection_lost ⟨true, [], 0, [(0x30, [0x01])], some 5, []⟩).queueGen = 1 := by
  have h := connection_lost_spec ⟨true, [], 0, [(0x30, [0x01])], some 5, []⟩
  exact ⟨h.1, h.2.1, h.2.2.1, h.2.2.2.1 5 rfl, h.2.2.2.2.2.1, h.2.2.2.2.2.2⟩

/-- C4: for every buffer consisting of zero or more complete well-formed
packets followed by a proper prefix of a further well-formed packet (or by
nothing), `_read_packet` emits exactly the complete packets in order,
returns as consumed exactly the total byte length of those complete packets
(0 when there are none), and does not return the malformed sentinel. -/
theorem readPacket_complete_then_truncated (ws : List WirePacket) (pp : List Byte)
    (hval : ∀ p ∈ ws, p.Valid) (htr : TruncatedPacket pp) :
    readPacket (encodeList ws ++ pp) =
      (((encodeList ws).length : Int), packetsOf ws) ∧
    ((encodeList ws).length : Int) ≠ -1 :=
  ⟨readPacket_spec ws pp hval htr, by omega⟩

/-- C4 witness: one complete packet (`30 05 "hello"`) followed by a complete
header with missing payload bytes (`30 03 01`, payload truncated): exactly
the complete packet is emitted and 7 bytes are consumed. -/
theorem readPacket_complete_then_truncated_witness :
    readPacket (encodeList [⟨0x30, [0x05], [104, 101, 108, 108, 111]⟩] ++
        [0x30, 0x03, 0x01]) =
      (((encodeList [⟨0x30, [0x05], [104, 101, 108, 108, 111]⟩]).length : Int),
        packetsOf [⟨0x30, [0x05], [104, 101, 108, 108, 111]⟩]) ∧
    (((encodeList [⟨0x30, [0x05], [104, 101, 108, 108, 111]⟩]).length : Int) ≠ -1) :=
  readPacket_complete_then_truncated [⟨0x30, [0x05], [104, 101, 108, 108, 111]⟩]
    [0x30, 0x03, 0x01] (by decide)
    (Or.inr ⟨⟨0x30, [0x03], [0x01, 0x02, 0x03]⟩, [0x02, 0x03], by decide, by decide,
      by decide⟩)

/-- C5: a zero-byte transport read while the transport does not report
closing makes this side close the transport and raise the reset condition
(`read` returns `closedTransport = true` and no bytes), and the read-loop
iteration catches that condition itself and terminates with no exception
escaping the task boundary. -/
theorem zero_read_reset_spec :
    read_model [] false = { closedTransport := true, result := none } ∧
    ∀ buf : List Byte,
      read_loop_iter buf [] false =
        { closedTransport := true, stopped := true, raisedOut := false, buf := buf } :=
  ⟨rfl, fun buf => rfl⟩

/-- C6 counterexample: `send_publish` does not return just the allocated
message identifier — its return value also contains the built packet bytes
(so two calls with the same mid but different packets return different
values), and `send_disconnect` does not return nothing — it returns the
built packet bytes. -/
theorem send_return_shapes_counterexample :
    (send_publish ⟨false, []⟩ 5 [9]).2 = (5, [9]) ∧
    (send_publish ⟨false, []⟩ 5 [9]).2 ≠ (send_publish ⟨false, []⟩ 5 [8]).2 ∧
    (send_disconnect ⟨false, []⟩ [7]).2 = [7] ∧
    (send_disconnect ⟨false, []⟩ [7]).2 ≠ (send_disconnect ⟨false, []⟩ [6]).2 := by
  decide

/-- C6 (amended): `send_subscribe_packet` and `send_unsubscribe_packet`
return the allocated message identifier; `send_publish` returns the pair
`(mid, packet bytes)`; `send_simple_command_packet` and `send_ping_request`
return nothing; `send_disconnect` returns the built packet bytes. -/
theorem send_return_values (t : Transport) (mid : Nat) (pkg : List Byte) :
    (send_subscribe_packet t mid pkg).2 = mid ∧
    (send_unsubscribe_packet t mid pkg).2 = mid ∧
    (send_publish t mid pkg).2 = (mid, pkg) ∧
    (send_simple_command_packet t pkg).2 = () ∧
    (send_ping_request t pkg).2 = () ∧
    (send_disconnect t pkg).2 = pkg :=
  ⟨rfl, rfl, rfl, rfl, rfl, rfl⟩

/-- C7: `write_data` writes the bytes to the transport exactly when the
transport does not report it is closing; when it does, nothing is written
and the diagnostic is logged instead.  The function is total (it never
raises): it is defined for every transport state and byte sequence. -/
theorem write_data_spec (t : Transport) (data : List Byte) :
    write_data t data =
      (if t.is_closing then t else { t with written := t.written ++ [data] },
        t.is_closing) := by
  cases h : t.is_closing <;> simp [write_data, h]

/-- C8: the constructor's `buffer_size` parameter influences neither the
constructed attribute state nor the read-request size: every transport read
issued by the read loop requests exactly 65,536 bytes. -/
theorem read_request_size_spec (b1 b2 : Nat) :
    read_request_size b1 = 65536 ∧ base_init b1 = base_init b2 :=
  ⟨rfl, rfl⟩

/-- C9: `_read_packet` is total — evaluating it with any sufficient fuel
(our fuel of `len(data)` always is; the index accesses are
bounds-guaranteed by construction) gives the same result, and its return
value is either `-1` or an integer `n` with `0 ≤ n ≤ len(data)`. -/
theorem readPacket_total_bounds (data : List Byte) (f : Nat)
    (hf : data.length ≤ f) (hle : 0 + data.length ≤ data.length) :
    readPacketAux data f 0 data.length hle = readPacket data ∧
    ((readPacket data).1 = -1 ∨
      (0 ≤ (readPacket data).1 ∧ (readPacket data).1 ≤ (data.length : Int))) := by
  constructor
  · exact readPacketAux_fuel hle hf (le_refl data.length)
  · have h0 : readPacket data = readPacketAux data data.length 0 data.length hle := rfl
    rw [h0]
    rcases @readPacketAux_le data data.length 0 data.length hle with h | ⟨h1, h2⟩
    · exact Or.inl h
    · refine Or.inr ⟨?_, ?_⟩
      · exact_mod_cast h1
      · have : ((0 + data.length : Nat) : Int) = (data.length : Int) := by push_cast; ring
        rw [this] at h2
        exact h2

/-- C9 witness: totality and bounds evaluated on the concrete buffer
`e0 00` with fuel 5. -/
theorem readPacket_total_bounds_witness :
    readPacketAux [0xe0, 0x00] 5 0 ([0xe0, 0x00] : List Byte).length (by decide) =
      readPacket [0xe0, 0x00] ∧
    ((readPacket [0xe0, 0x00]).1 = -1 ∨
      (0 ≤ (readPacket [0xe0, 0x00]).1 ∧
        (readPacket [0xe0, 0x00]).1 ≤ (([0xe0, 0x00] : List Byte).length : Int))) :=
  readPacket_total_bounds [0xe0, 0x00] 5 (by decide) (by decide)

/-- C10: when `_read_packet` hits a malformed remaining-length field (here:
four `80` continuation bytes and a fifth length byte) after a run of
complete well-formed packets, it returns `-1` AND every packet fully decoded
earlier in the same call has already been emitted — the error is not atomic
with respect to packet emission. -/
theorem readPacket_emits_before_malformed (ws : List WirePacket) (c : Byte)
    (r : List Byte) (hval : ∀ p ∈ ws, p.Valid) :
    readPacket (encodeList ws ++
        c :: (0x80 : Byte) :: 0x80 :: 0x80 :: 0x80 :: 0x80 :: r) =
      (-1, packetsOf ws) := by
  apply readPacket_malformed_after ws c 0x80 0x80 0x80 0x80 0x80 r hval
    (by decide) (by decide) (by decide) (by decide)
  have h0 : varintVal [(0x80 : Byte), 0x80, 0x80, 0x80] = 0 := by decide
  omega

/-- C10 witness: a complete DISCONNECT packet followed by the malformed
header `10 80 80 80 80 80`: the packet is emitted and the call returns
`-1`. -/
theorem readPacket_emits_before_malformed_witness :
    readPacket (encodeList [⟨0xe0, [0x00], []⟩] ++
        (0x10 : Byte) :: (0x80 : Byte) :: 0x80 :: 0x80 :: 0x80 :: 0x80 :: []) =
      (-1, packetsOf [⟨0xe0, [0x00], []⟩]) :=
  readPacket_emits_before_malformed [⟨0xe0, [0x00], []⟩] 0x10 [] (by decide)
